import Mathlib

/-!
Verification of the refactor tool (Go). Strings are modelled as lists of
runes (List Char). The repository holds two pipeline iterations: the channel
pipeline (main, searchThisFile, modifyThisFile in refactor.go) and the
Refactor-struct pipeline (Refactor.InspectFile, Refactor.PrintMatches,
Refactor.ReplaceMatches, Refactor.ModifyFileContent, present in refactor.go
and, in an earlier form without the Lstat check and without the semaphore,
in src/unnamed/part_001). Both iterations are embedded below.
-/

namespace Refactor

/-- Model of Go strings.Count and bytes.Count for a nonempty pattern pat:
the number of leftmost non-overlapping occurrences of pat in s, scanning
left to right (after a match the scan resumes past the matched text).
The fuel argument bounds the recursion; every step consumes at least one
character of s, so any fuel at least s.length makes the result exact. -/
def countFuel (pat : List Char) : Nat → List Char → Nat
  | 0, _ => 0
  | _ + 1, [] => 0
  | fuel + 1, d :: rest =>
    if pat.isPrefixOf (d :: rest)
    then 1 + countFuel pat fuel (rest.drop (pat.length - 1))
    else countFuel pat fuel rest

/-- Go strings.Count(s, pat): for the empty pattern the count is the rune
length of s plus one; otherwise the non-overlapping occurrence count. -/
def stringsCount (s pat : List Char) : Nat :=
  if pat = [] then s.length + 1 else countFuel pat s.length s

/-- Go strings.Contains(s, pat): pat occurs as a contiguous substring of s. -/
def stringsContains (s pat : List Char) : Bool :=
  pat.isPrefixOf s ||
    match s with
    | [] => false
    | _ :: rest => stringsContains rest pat

/-- The replacement loop of Go strings.Replace and bytes.Replace for a
nonempty pattern: replace the leftmost n non-overlapping occurrences of pat
by new, leaving the rest of s unchanged. Fuel at least s.length is exact. -/
def replaceFuel (pat new : List Char) : Nat → List Char → Nat → List Char
  | 0, s, _ => s
  | _ + 1, s, 0 => s
  | _ + 1, [], _ + 1 => []
  | fuel + 1, d :: rest, n + 1 =>
    if pat.isPrefixOf (d :: rest)
    then new ++ replaceFuel pat new fuel (rest.drop (pat.length - 1)) n
    else d :: replaceFuel pat new fuel rest (n + 1)

/-- The empty-pattern branch of Go strings.Replace: new is inserted at the
start and after each rune, up to n insertions (Go caps n at the rune length
of s plus one; with this recursion larger fuel gives the same value). -/
def insertEvery (new : List Char) : List Char → Nat → List Char
  | s, 0 => s
  | [], _ + 1 => new
  | d :: rest, n + 1 => new ++ d :: insertEvery new rest n

/-- Go strings.Replace(s, old, new, n) and bytes.Replace for n at least 0. -/
def stringsReplace (s old new : List Char) (n : Nat) : List Char :=
  if old = [] then insertEvery new s n else replaceFuel old new s.length s n

/-- Go strings.Replace(s, old, new, -1): a negative limit replaces every
occurrence, i.e. the limit becomes Count(s, old). -/
def stringsReplaceAll (s old new : List Char) : List Char :=
  stringsReplace s old new (stringsCount s old)

/-- One line reported by searchThisFile (refactor.go, channel pipeline). -/
structure Finding where
  lineNumber : Nat
  occurrences : Nat
  originalText : List Char
deriving DecidableEq

/-- The scanning loop of searchThisFile: row is incremented before each
line is inspected, so line numbers are 1-based; a line is appended exactly
when strings.Count of the query in it is positive. -/
def searchFindingsFrom (query : List Char) : Nat → List (List Char) → List Finding
  | _, [] => []
  | row, l :: ls =>
    if 0 < stringsCount l query
    then ⟨row + 1, stringsCount l query, l⟩ :: searchFindingsFrom query (row + 1) ls
    else searchFindingsFrom query (row + 1) ls

/-- The Findings searchThisFile produces for the given sequence of lines. -/
def searchThisFileFindings (lines : List (List Char)) (query : List Char) : List Finding :=
  searchFindingsFrom query 0 lines

/-- The totalOccurrences accumulation loop of modifyThisFile. -/
def totalOccurrences (fnds : List Finding) : Nat :=
  fnds.foldl (fun acc f => acc + f.occurrences) 0

/-- Splitting a stream into newline-terminated tokens, keeping a trailing
empty token; an auxiliary step of the bufio line model below. -/
def splitNL : List Char → List (List Char)
  | [] => [[]]
  | c :: rest =>
    match splitNL rest with
    | [] => [[]]
    | l :: ls => if c = '\n' then [] :: l :: ls else (c :: l) :: ls

/-- The dropCR step of bufio.ScanLines: a trailing carriage return is
removed from a scanned line. -/
def dropCR (l : List Char) : List Char :=
  if l.getLast? = some '\r' then l.dropLast else l

/-- The lines bufio.Scanner yields for a file content: content is split at
each newline, the terminator is excluded, a trailing carriage return is
stripped, and no final empty line is produced when the content ends with a
newline or is empty. -/
def splitLines (s : List Char) : List (List Char) :=
  if s = [] then []
  else (if s.getLast? = some '\n' then (splitNL s).dropLast else splitNL s).map dropCR

/-- One match record of the Refactor-struct pipeline (Refactor.InspectFile).
The GrepFormat field of the Go struct is the string rendering of filename
and lineNumber and is omitted as pure presentation. Note the record carries
no occurrence count. -/
structure Match where
  filename : List Char
  lineText : List Char
  lineNumber : Nat
deriving DecidableEq

/-- The scanning loop of Refactor.InspectFile: a Match is appended for each
line that contains Oldtext as a substring (strings.Contains), with the
1-based line number and the original line text. -/
def inspectMatchesFrom (filename oldtext : List Char) : Nat → List (List Char) → List Match
  | _, [] => []
  | row, l :: ls =>
    if stringsContains l oldtext
    then ⟨filename, l, row + 1⟩ :: inspectMatchesFrom filename oldtext (row + 1) ls
    else inspectMatchesFrom filename oldtext (row + 1) ls

/-- The Matches Refactor.InspectFile appends for one file. -/
def inspectMatches (filename oldtext : List Char) (lines : List (List Char)) : List Match :=
  inspectMatchesFrom filename oldtext 0 lines

/-- The per-file environment a scanner task meets: whether os.Lstat
succeeds, whether the metadata marks the path a symbolic link, whether
os.Open succeeds, and the lines the opened stream yields (for a symbolic
link these are the lines of the target, since os.Open follows links). -/
structure ScanEnv where
  lstatOk : Bool
  isSymlink : Bool
  openOk : Bool
  lines : List (List Char)
deriving DecidableEq

/-- The exit record of one searchThisFile task: whether the semaphore slot
was drained back, whether wg.Done ran, whether the file was opened, and the
SearchResult sent on the result channel (none when no send happened). -/
structure ScanExit where
  semaReleased : Bool
  wgDone : Bool
  opened : Bool
  result : Option (List Finding)
deriving DecidableEq

/-- Control flow of searchThisFile (refactor.go, channel pipeline): sem is
acquired first, and wg.Done plus the semaphore drain are registered as
defers immediately, so every exit path releases both; the Lstat-error,
symlink and Open-error paths return without sending a SearchResult. -/
def searchThisFileRun (env : ScanEnv) (query : List Char) : ScanExit :=
  if env.lstatOk = false then ⟨true, true, false, none⟩
  else if env.isSymlink = true then ⟨true, true, false, none⟩
  else if env.openOk = false then ⟨true, true, false, none⟩
  else ⟨true, true, true, some (searchThisFileFindings env.lines query)⟩

/-- The exit record of one Refactor.InspectFile task: semaphore drain flag,
wg.Done flag, open flag, and the Matches appended to the aggregate. -/
structure InspectExit where
  semaReleased : Bool
  wgDone : Bool
  opened : Bool
  matchesOut : List Match
deriving DecidableEq

/-- Control flow of Refactor.InspectFile (refactor.go, struct pipeline):
sema is filled first; the Lstat-error path returns with neither a semaphore
drain nor wg.Done; the symlink path drains sema and calls wg.Done
explicitly; the Open-error path again returns with neither; only after a
successful open does a defer guarantee both. -/
def inspectFileRun (env : ScanEnv) (filename oldtext : List Char) : InspectExit :=
  if env.lstatOk = false then ⟨false, false, false, []⟩
  else if env.isSymlink = true then ⟨true, true, false, []⟩
  else if env.openOk = false then ⟨false, false, false, []⟩
  else ⟨true, true, true, inspectMatches filename oldtext env.lines⟩

/-- Control flow of the part_001 iteration of Refactor.InspectFile: there
is no Lstat call, no symlink check and no semaphore (semaReleased is
vacuously true); the path is opened whenever os.Open succeeds, following a
symbolic link to its target; the Open-error path returns before the defer
that calls wg.Done is registered. -/
def inspectFileP1Run (env : ScanEnv) (filename oldtext : List Char) : InspectExit :=
  if env.openOk = false then ⟨true, false, false, []⟩
  else ⟨true, true, true, inspectMatches filename oldtext env.lines⟩

/-- A file on disk: its content and its permission bits. -/
structure FSFile where
  content : List Char
  mode : Nat
deriving DecidableEq

/-- Model of ioutil.WriteFile on a path: the perm argument is passed to
os.OpenFile together with O_CREATE, and the operating system applies it
only when the file is being created; writing to an existing file keeps the
permission bits the file already has (WriteFile never calls chmod). -/
def ioutilWriteFile (existing : Option FSFile) (newContent : List Char) (perm : Nat) : FSFile :=
  match existing with
  | some f => ⟨newContent, f.mode⟩
  | none => ⟨newContent, perm⟩

/-- The commit branch of modifyThisFile (channel pipeline): the file is
read in full, totalOccurrences is summed over the Findings of the scan,
and bytes.Replace is applied with that limit; the write passes perm 0644
(420), which only matters if the path had to be created. -/
def modifyThisFileCommit (oldText newText : List Char) (fnds : List Finding) (f : FSFile) : FSFile :=
  ioutilWriteFile (some f) (stringsReplace f.content oldText newText (totalOccurrences fnds)) 420

/-- Refactor.ModifyFileContent (struct pipeline): the file is read in full
and strings.Replace is applied with limit -1, replacing every occurrence;
the write passes perm 0. -/
def modifyFileContentRun (oldtext newtext : List Char) (f : FSFile) : FSFile :=
  ioutilWriteFile (some f) (stringsReplaceAll f.content oldtext newtext) 0

/-- Outcome of Refactor.ReplaceMatches: the files after the run, how many
tokens were read from standard input, whether the cancellation notice was
printed, and how many ModifyFileContent tasks were spawned. -/
structure GateRun where
  files : List FSFile
  inputReads : Nat
  cancelNotice : Bool
  rewritersRun : Nat
deriving DecidableEq

/-- Refactor.ReplaceMatches: one token is read with fmt.Scanf for the whole
batch; an answer other than the single token y prints the cancellation
notice and returns before any ModifyFileContent goroutine is spawned;
answer y rewrites every file of the (deduplicated) Uniques list. -/
def replaceMatchesRun (oldtext newtext : List Char) (answer : List Char) (files : List FSFile) : GateRun :=
  if answer = ['y']
  then ⟨files.map (modifyFileContentRun oldtext newtext), 1, false, files.length⟩
  else ⟨files, 1, true, 0⟩

/-- The commit-mode result loop of main in the channel pipeline (refactor.go
lines 95 to 106 with flagCommitChanges set): every received SearchResult
with Findings spawns modifyThisFile directly; no confirmation is read, so
the second component (tokens read from standard input) is 0. -/
def mainCommitRunA (oldText newText : List Char)
    (results : List (List Finding × FSFile)) : List FSFile × Nat :=
  (results.map (fun r => if r.1.isEmpty then r.2 else modifyThisFileCommit oldText newText r.1 r.2), 0)

/-- The modify set of the channel pipeline: main spawns one modifyThisFile
per received SearchResult with nonempty Findings, and one searchThisFile
ran per entry of the files list, so a path occurs in the modify set once
per occurrence in the input list (contents given by the map fs). -/
def modifySetA (fs : List Char → List (List Char)) (query : List Char)
    (files : List (List Char)) : List (List Char) :=
  files.filter (fun p => !(searchThisFileFindings (fs p) query).isEmpty)

/-- The inArray helper of refactor.go. -/
def inArray (haystack : List (List Char)) (needle : List Char) : Bool :=
  match haystack with
  | [] => false
  | t :: rest => if t = needle then true else inArray rest needle

/-- The Uniques list built by Refactor.InspectFile under the mutex: for
each arriving match the filename is appended only when inArray does not
already find it. -/
def buildUniques (arrivals : List (List Char)) : List (List Char) :=
  arrivals.foldl (fun u f => if inArray u f then u else u ++ [f]) []

/-- Events of one pipeline run: scanner i completes (its result is
delivered), or the modifyThisFile task for file i is spawned (its preview
printing or rewrite begins). -/
inductive PipeEvent where
  | scanDone : Nat → PipeEvent
  | modifyStart : Nat → PipeEvent
deriving DecidableEq

/-- Discriminator for modifyStart events. -/
def isModifyStart : PipeEvent → Bool
  | .modifyStart _ => true
  | .scanDone _ => false

/-- Discriminator for scanDone events. -/
def isScanDone : PipeEvent → Bool
  | .scanDone _ => true
  | .modifyStart _ => false

/-- The event order of the channel-pipeline main loop: results are received
one at a time over an unbuffered channel, and a result with findings spawns
modifyThisFile before the next receive, hence before every later scanner
can complete its send. The argument lists the arrival order as pairs of
file index and a flag for nonempty findings. -/
def mainEventsA : List (Nat × Bool) → List PipeEvent
  | [] => []
  | (i, has) :: rest =>
    PipeEvent.scanDone i ::
      ((if has then [PipeEvent.modifyStart i] else []) ++ mainEventsA rest)

/-- The event order of Refactor.Execute: GrepDirectory blocks on wg.Wait
until all n scanners are done, and only then PrintMatches and
ReplaceMatches spawn the modify tasks listed in mods. -/
def executeEventsB (n : Nat) (mods : List Nat) : List PipeEvent :=
  ((List.range n).map PipeEvent.scanDone) ++ mods.map PipeEvent.modifyStart

/-- The full scan fan-in barrier respected: after any modifyStart event no
scanDone event follows in the trace. -/
def barrierRespectedB : List PipeEvent → Bool
  | [] => true
  | e :: rest =>
    ((!isModifyStart e) || rest.all (fun x => !isScanDone x)) && barrierRespectedB rest

/-- Statement of the scan contract in the words of the specification: one
Finding per line with at least one occurrence, carrying the 1-based line
number, the per-line non-overlapping occurrence count, and the unmodified
line text. -/
def findingsSpec (lines : List (List Char)) (query : List Char) : List Finding :=
  lines.enum.filterMap fun p =>
    if 0 < stringsCount p.2 query
    then some ⟨p.1 + 1, stringsCount p.2 query, p.2⟩
    else none

lemma searchFindingsFrom_eq_enumFrom (query : List Char) :
    ∀ (ls : List (List Char)) (r : Nat),
      searchFindingsFrom query r ls =
        (List.enumFrom r ls).filterMap fun p =>
          if 0 < stringsCount p.2 query
          then some ⟨p.1 + 1, stringsCount p.2 query, p.2⟩
          else none
  | [], _ => rfl
  | l :: ls, r => by
    by_cases h : 0 < stringsCount l query <;>
      simp [searchFindingsFrom, List.enumFrom_cons, List.filterMap_cons, h,
        searchFindingsFrom_eq_enumFrom query ls (r + 1)]

lemma searchThisFileFindings_eq_spec (lines : List (List Char)) (query : List Char) :
    searchThisFileFindings lines query = findingsSpec lines query := by
  simpa [searchThisFileFindings, findingsSpec, List.enum] using
    searchFindingsFrom_eq_enumFrom query lines 0

lemma totalOccurrences_go (fnds : List Finding) :
    ∀ a : Nat, fnds.foldl (fun acc f => acc + f.occurrences) a =
      a + (fnds.map (fun f => f.occurrences)).sum := by
  induction fnds with
  | nil => simp
  | cons f fnds ih => intro a; simp [List.foldl_cons, ih, Nat.add_assoc]

lemma totalOccurrences_eq_sum (fnds : List Finding) :
    totalOccurrences fnds = (fnds.map (fun f => f.occurrences)).sum := by
  simpa [totalOccurrences] using totalOccurrences_go fnds 0

lemma totalOccurrences_searchFindingsFrom (query : List Char) :
    ∀ (ls : List (List Char)) (r : Nat),
      totalOccurrences (searchFindingsFrom query r ls) =
        (ls.map (fun l => stringsCount l query)).sum
  | [], _ => by simp [searchFindingsFrom, totalOccurrences]
  | l :: ls, r => by
    have ih := totalOccurrences_searchFindingsFrom query ls (r + 1)
    rw [totalOccurrences_eq_sum] at ih ⊢
    by_cases h : 0 < stringsCount l query
    · simp [searchFindingsFrom, h, ih]
    · have h0 : stringsCount l query = 0 := Nat.eq_zero_of_not_pos h
      simp [searchFindingsFrom, h, ih, h0]

lemma searchFindingsFrom_nil_of_zero (query : List Char) :
    ∀ (ls : List (List Char)) (r : Nat),
      (∀ l ∈ ls, stringsCount l query = 0) → searchFindingsFrom query r ls = []
  | [], _, _ => rfl
  | l :: ls, r, h => by
    have hl : stringsCount l query = 0 := h l (List.mem_cons_self l ls)
    have hr := searchFindingsFrom_nil_of_zero query ls (r + 1)
      (fun x hx => h x (List.mem_cons_of_mem l hx))
    simp [searchFindingsFrom, hl, hr]

lemma searchFindingsFrom_length_empty_query :
    ∀ (ls : List (List Char)) (r : Nat),
      (searchFindingsFrom ([] : List Char) r ls).length = ls.length
  | [], _ => rfl
  | l :: ls, r => by
    have ih := searchFindingsFrom_length_empty_query ls (r + 1)
    simp [searchFindingsFrom, stringsCount, ih]

lemma replaceFuel_zero (pat new : List Char) :
    ∀ (fuel : Nat) (s : List Char), replaceFuel pat new fuel s 0 = s
  | 0, _ => rfl
  | _ + 1, [] => rfl
  | _ + 1, _ :: _ => rfl

lemma replaceFuel_cons_skip (pat new : List Char) (d : Char) (rest : List Char)
    (h : ¬ pat.isPrefixOf (d :: rest) = true) (fuel : Nat) :
    ∀ n : Nat, replaceFuel pat new (fuel + 1) (d :: rest) n =
      d :: replaceFuel pat new fuel rest n
  | 0 => by rw [replaceFuel_zero, replaceFuel_zero]
  | n + 1 => by simp [replaceFuel, h]

lemma replaceFuel_min (pat new : List Char) :
    ∀ (fuel : Nat) (s : List Char) (n : Nat), s.length ≤ fuel →
      replaceFuel pat new fuel s n =
        replaceFuel pat new fuel s (min n (countFuel pat fuel s))
  | 0, s, n, hs => by
    have : s = [] := List.length_eq_zero.mp (Nat.le_zero.mp hs)
    subst this
    cases n <;> rfl
  | fuel + 1, [], n, _ => by
    cases n <;> simp [replaceFuel, countFuel]
  | fuel + 1, d :: rest, 0, _ => by simp [replaceFuel_zero]
  | fuel + 1, d :: rest, n + 1, hs => by
    have hrest : rest.length ≤ fuel := Nat.le_of_succ_le_succ hs
    by_cases hp : pat.isPrefixOf (d :: rest) = true
    · have hdrop : (rest.drop (pat.length - 1)).length ≤ fuel := by
        have := List.length_drop (pat.length - 1) rest
        omega
      have ih := replaceFuel_min pat new fuel (rest.drop (pat.length - 1)) n hdrop
      simp only [replaceFuel, countFuel, hp, if_pos, if_true]
      rw [Nat.add_comm 1 (countFuel pat fuel (rest.drop (pat.length - 1))),
        Nat.succ_min_succ]
      simp only [replaceFuel, hp, if_true]
      rw [ih]
    · have ih := replaceFuel_min pat new fuel rest (n + 1) hrest
      rw [replaceFuel_cons_skip pat new d rest hp fuel,
        replaceFuel_cons_skip pat new d rest hp fuel]
      have hc : countFuel pat (fuel + 1) (d :: rest) = countFuel pat fuel rest := by
        simp [countFuel, hp]
      rw [hc, ih]

lemma insertEvery_min (new : List Char) :
    ∀ (s : List Char) (n : Nat),
      insertEvery new s n = insertEvery new s (min n (s.length + 1))
  | s, 0 => by simp
  | [], n + 1 => by
    have : min (n + 1) 1 = 1 := by omega
    simp [insertEvery, this]
  | d :: rest, n + 1 => by
    have ih := insertEvery_min new rest n
    have hmin : min (n + 1) ((d :: rest).length + 1) = min n (rest.length + 1) + 1 := by
      simp only [List.length_cons]
      omega
    rw [hmin]
    simp only [insertEvery]
    rw [ih]

lemma stringsReplace_min (s old new : List Char) (n : Nat) :
    stringsReplace s old new n = stringsReplace s old new (min n (stringsCount s old)) := by
  by_cases h : old = []
  · subst h
    simp only [stringsReplace, stringsCount, if_pos rfl, if_true]
    exact insertEvery_min new s n
  · simp only [stringsReplace, stringsCount, if_neg h]
    exact replaceFuel_min old new s.length s n (Nat.le_refl _)

lemma isPrefixOf_single (c d : Char) (rest : List Char) :
    ([c].isPrefixOf (d :: rest)) = (c == d) := by
  simp [List.isPrefixOf]

lemma countFuel_single (c : Char) :
    ∀ (fuel : Nat) (s : List Char), s.length ≤ fuel →
      countFuel [c] fuel s = s.count c
  | 0, s, hs => by
    have : s = [] := List.length_eq_zero.mp (Nat.le_zero.mp hs)
    subst this; rfl
  | fuel + 1, [], _ => by simp [countFuel]
  | fuel + 1, d :: rest, hs => by
    have hrest : rest.length ≤ fuel := Nat.le_of_succ_le_succ hs
    have ih := countFuel_single c fuel rest hrest
    by_cases h : c = d
    · subst h
      simp [countFuel, isPrefixOf_single, ih, List.count_cons, Nat.add_comm]
    · have hb : (c == d) = false := by simp [h]
      simp [countFuel, isPrefixOf_single, hb, ih, List.count_cons, h]

lemma not_mem_replaceFuel_single (c : Char) (new : List Char) (hnew : c ∉ new) :
    ∀ (fuel : Nat) (s : List Char) (n : Nat), s.length ≤ fuel →
      s.count c ≤ n → c ∉ replaceFuel [c] new fuel s n
  | 0, s, n, hs, _ => by
    have : s = [] := List.length_eq_zero.mp (Nat.le_zero.mp hs)
    subst this
    cases n <;> simp [replaceFuel]
  | fuel + 1, [], n, _, _ => by cases n <;> simp [replaceFuel]
  | fuel + 1, d :: rest, n, hs, hcnt => by
    have hrest : rest.length ≤ fuel := Nat.le_of_succ_le_succ hs
    cases n with
    | zero =>
      have : (d :: rest).count c = 0 := Nat.le_zero.mp hcnt
      have : c ∉ d :: rest := by
        rw [← List.count_eq_zero]; exact this
      simpa [replaceFuel_zero] using this
    | succ m =>
      by_cases h : c = d
      · subst h
        have hpre : ([c].isPrefixOf (c :: rest)) = true := by
          simp [isPrefixOf_single]
        have hcnt2 : rest.count c ≤ m := by
          have := hcnt
          simp [List.count_cons] at this
          omega
        have ih := not_mem_replaceFuel_single c new hnew fuel rest m hrest hcnt2
        simp only [replaceFuel, hpre, if_true, List.length_cons]
        intro hmem
        rcases List.mem_append.mp (by simpa using hmem) with h1 | h2
        · exact hnew h1
        · exact ih (by simpa using h2)
      · have hb : ([c].isPrefixOf (d :: rest)) = false := by
          simp [isPrefixOf_single, h]
        have hcnt2 : rest.count c ≤ m + 1 := by
          have h2 := hcnt
          simp [List.count_cons, h] at h2
          omega
        have ih := not_mem_replaceFuel_single c new hnew fuel rest (m + 1) hrest hcnt2
        simp only [replaceFuel, hb, Bool.false_eq_true, if_false]
        intro hmem
        rcases List.mem_cons.mp hmem with h1 | h2
        · exact h h1
        · exact ih h2

lemma not_mem_stringsReplaceAll_single (c : Char) (new s : List Char) (hnew : c ∉ new) :
    c ∉ stringsReplaceAll s [c] new := by
  have hne : ([c] : List Char) ≠ [] := by simp
  have hcount : stringsCount s [c] = s.count c := by
    simp only [stringsCount, if_neg hne]
    exact countFuel_single c s.length s (Nat.le_refl _)
  simp only [stringsReplaceAll, stringsReplace, if_neg hne, hcount]
  exact not_mem_replaceFuel_single c new hnew s.length s (s.count c)
    (Nat.le_refl _) (Nat.le_refl _)

lemma mem_splitNL (ch : Char) :
    ∀ (s : List Char) (l : List Char), l ∈ splitNL s → ch ∈ l → ch ∈ s
  | [], l, hl, hch => by
    simp [splitNL] at hl
    subst hl
    simp at hch
  | c :: rest, l, hl, hch => by
    have ih := mem_splitNL ch rest
    rcases hsplit : splitNL rest with _ | ⟨l0, ls⟩ <;>
      simp only [splitNL, hsplit] at hl
    · simp at hl
      subst hl
      simp at hch
    · by_cases hc : c = '\n'
      · rw [if_pos hc] at hl
        rcases List.mem_cons.mp hl with h1 | h2
        · subst h1; simp at hch
        · have : ch ∈ rest := ih l (by rw [hsplit]; exact h2) hch
          exact List.mem_cons_of_mem c this
      · rw [if_neg hc] at hl
        rcases List.mem_cons.mp hl with h1 | h2
        · subst h1
          rcases List.mem_cons.mp hch with h3 | h4
          · subst h3; exact List.mem_cons_self ch rest
          · have : ch ∈ rest :=
              ih l0 (by rw [hsplit]; exact List.mem_cons_self l0 ls) h4
            exact List.mem_cons_of_mem c this
        · have : ch ∈ rest :=
            ih l (by rw [hsplit]; exact List.mem_cons_of_mem l0 h2) hch
          exact List.mem_cons_of_mem c this

lemma mem_dropCR (ch : Char) (l : List Char) (h : ch ∈ dropCR l) : ch ∈ l := by
  unfold dropCR at h
  split at h
  · exact (List.dropLast_sublist l).mem h
  · exact h

lemma mem_splitLines (ch : Char) (s : List Char) (l : List Char)
    (hl : l ∈ splitLines s) (hch : ch ∈ l) : ch ∈ s := by
  unfold splitLines at hl
  split at hl
  · simp at hl
  · rcases List.mem_map.mp hl with ⟨l0, hl0, hmap⟩
    subst hmap
    have hch0 : ch ∈ l0 := mem_dropCR ch l0 hch
    split at hl0
    · exact mem_splitNL ch s l0 ((List.dropLast_sublist _).mem hl0) hch0
    · exact mem_splitNL ch s l0 hl0 hch0

lemma inArray_eq_true_iff (u : List (List Char)) (f : List Char) :
    inArray u f = true ↔ f ∈ u := by
  induction u with
  | nil => simp [inArray]
  | cons t rest ih =>
    by_cases h : t = f
    · subst h
      simp [inArray]
    · simp only [inArray, if_neg h, ih, List.mem_cons]
      constructor
      · exact Or.inr
      · rintro (he | hm)
        · exact absurd he.symm h
        · exact hm

lemma buildUniques_go_nodup :
    ∀ (arrivals : List (List Char)) (u : List (List Char)), u.Nodup →
      (arrivals.foldl (fun u f => if inArray u f then u else u ++ [f]) u).Nodup
  | [], _, hu => hu
  | f :: rest, u, hu => by
    have step : (if inArray u f then u else u ++ [f]).Nodup := by
      by_cases h : inArray u f
      · simpa [h] using hu
      · have hnot : f ∉ u := fun hm => h ((inArray_eq_true_iff u f).mpr hm)
        simp [h, List.nodup_append, hu, hnot]
    simpa [List.foldl_cons] using buildUniques_go_nodup rest _ step

lemma buildUniques_nodup (arrivals : List (List Char)) :
    (buildUniques arrivals).Nodup :=
  buildUniques_go_nodup arrivals [] List.nodup_nil

lemma all_not_scanDone_mods (ms : List Nat) :
    (ms.map PipeEvent.modifyStart).all (fun x => !isScanDone x) = true := by
  rw [List.all_eq_true]
  intro x hx
  rcases List.mem_map.mp hx with ⟨m, _, rfl⟩
  rfl

lemma barrierRespectedB_mods (ms : List Nat) :
    barrierRespectedB (ms.map PipeEvent.modifyStart) = true := by
  induction ms with
  | nil => rfl
  | cons m ms ih =>
    simp only [List.map_cons, barrierRespectedB, isModifyStart, Bool.not_true,
      Bool.false_or, Bool.and_eq_true]
    exact ⟨all_not_scanDone_mods ms, ih⟩

lemma barrierRespectedB_scans (ns ms : List Nat) :
    barrierRespectedB (ns.map PipeEvent.scanDone ++ ms.map PipeEvent.modifyStart) = true := by
  induction ns with
  | nil => simpa using barrierRespectedB_mods ms
  | cons i ns ih =>
    simp only [List.map_cons, List.cons_append, barrierRespectedB, isModifyStart,
      Bool.not_false, Bool.true_or, Bool.true_and]
    exact ih

/-- C1, counterexample to the claim as stated: for a file whose scanned
content was a single letter a (scan total 1), Refactor.ModifyFileContent
applied to the current content aa replaces both occurrences, exceeding the
scanned total; the claimed bounded write would have produced ba. The
unbounded pass of ModifyFileContent therefore refutes the claim that the
Rewriter never performs an unbounded fresh substitution pass. -/
theorem c1_rewriter_bound_cex :
    totalOccurrences (searchThisFileFindings (splitLines ['a']) ['a']) = 1
      ∧ (modifyFileContentRun ['a'] ['b'] ⟨['a', 'a'], 420⟩).content = ['b', 'b']
      ∧ stringsReplace ['a', 'a'] ['a'] ['b'] 1 = ['b', 'a']
      ∧ (modifyFileContentRun ['a'] ['b'] ⟨['a', 'a'], 420⟩).content
          ≠ stringsReplace ['a', 'a'] ['a'] ['b'] 1 :=
  ⟨by decide, by decide, by decide, by decide⟩

/-- C1, amended: the channel-pipeline Rewriter (modifyThisFile) writes the
read content with the leftmost min(scanned total, current occurrence count)
occurrences of oldText replaced by newText, so it never performs more
replacements than the scan counted; the struct-pipeline Rewriter
(Refactor.ModifyFileContent) instead replaces every occurrence of the
current content, ignoring the scanned total. -/
theorem c1_rewriter_bound (oldText newText : List Char) (fnds : List Finding) (f : FSFile) :
    (modifyThisFileCommit oldText newText fnds f).content
        = stringsReplace f.content oldText newText
            (min (totalOccurrences fnds) (stringsCount f.content oldText))
      ∧ (modifyFileContentRun oldText newText f).content
        = stringsReplace f.content oldText newText (stringsCount f.content oldText) := by
  constructor
  · have h := stringsReplace_min f.content oldText newText (totalOccurrences fnds)
    simpa [modifyThisFileCommit, ioutilWriteFile] using h
  · rfl

/-- C2: scanning a file content splits it into terminator-free lines; the
outcome is exactly one Finding per line with a positive non-overlapping
occurrence count of the query, carrying the 1-based line number, that
count, and the unmodified line text (findingsSpec), and the occurrence
counts over all Findings sum to the total occurrence count k over all
lines. -/
theorem c2_scanner_findings (content query : List Char) :
    searchThisFileFindings (splitLines content) query
        = findingsSpec (splitLines content) query
      ∧ totalOccurrences (searchThisFileFindings (splitLines content) query)
        = ((splitLines content).map (fun l => stringsCount l query)).sum :=
  ⟨searchThisFileFindings_eq_spec _ _,
   totalOccurrences_searchFindingsFrom query (splitLines content) 0⟩

/-- C3, counterexample to the claim as stated: with oldText ab, newText a
(newText does not contain oldText) and content abb, one committed pass of
either rewriter produces ab, which still contains oldText, so a second
identical run finds a nonempty set of Findings rather than nothing to
refactor. -/
theorem c3_idempotence_cex :
    stringsContains ['a'] ['a', 'b'] = false
      ∧ stringsReplaceAll ['a', 'b', 'b'] ['a', 'b'] ['a'] = ['a', 'b']
      ∧ stringsReplace ['a', 'b', 'b'] ['a', 'b'] ['a']
          (totalOccurrences (searchThisFileFindings (splitLines ['a', 'b', 'b']) ['a', 'b']))
          = ['a', 'b']
      ∧ searchThisFileFindings
          (splitLines (stringsReplaceAll ['a', 'b', 'b'] ['a', 'b'] ['a'])) ['a', 'b'] ≠ [] :=
  ⟨by decide, by decide, by decide, by decide⟩

/-- C3, amended: when oldText is a single character that does not occur in
newText, a committed run leaves no occurrence of oldText, so scanning the
rewritten content yields no Findings and a second identical run reports
nothing to refactor. (For a longer oldText a replacement can create a new
occurrence across the boundary of the substituted text, as the
counterexample shows.) -/
theorem c3_idempotence (c : Char) (newText content : List Char) (hnew : c ∉ newText) :
    searchThisFileFindings (splitLines (stringsReplaceAll content [c] newText)) [c] = [] := by
  apply searchFindingsFrom_nil_of_zero
  intro l hl
  have hnotc : c ∉ l := fun hc =>
    not_mem_stringsReplaceAll_single c newText content hnew
      (mem_splitLines c _ l hl hc)
  have hne : ([c] : List Char) ≠ [] := by simp
  rw [stringsCount, if_neg hne, countFuel_single c l.length l (Nat.le_refl _),
    List.count_eq_zero]
  exact hnotc

/-- C3, witness for the amended theorem at oldText a, newText b, content
axa. -/
theorem c3_idempotence_witness :
    'a' ∉ (['b'] : List Char)
      ∧ searchThisFileFindings
          (splitLines (stringsReplaceAll ['a', 'x', 'a'] ['a'] ['b'])) ['a'] = [] :=
  ⟨by decide, c3_idempotence 'a' ['b'] ['a', 'x', 'a'] (by decide)⟩

/-- C4: searchThisFile releases the semaphore slot and signals wg.Done on
every exit path (the defers are registered before any early return), but
Refactor.InspectFile returns from both the Lstat-failure path and the
Open-failure path without draining the semaphore and without wg.Done, so
on those paths the pool slot leaks and the fan-in barrier is never
signalled, contradicting the claim for the cited code. -/
theorem c4_scanner_exit_paths :
    (∀ (env : ScanEnv) (query : List Char),
        (searchThisFileRun env query).semaReleased = true
          ∧ (searchThisFileRun env query).wgDone = true)
      ∧ (inspectFileRun ⟨false, false, true, []⟩ ['f'] ['a']).semaReleased = false
      ∧ (inspectFileRun ⟨false, false, true, []⟩ ['f'] ['a']).wgDone = false
      ∧ (inspectFileRun ⟨true, false, false, []⟩ ['f'] ['a']).semaReleased = false
      ∧ (inspectFileRun ⟨true, false, false, []⟩ ['f'] ['a']).wgDone = false := by
  refine ⟨fun env query => ?_, by decide, by decide, by decide, by decide⟩
  rcases env with ⟨ls, sy, op, lines⟩
  cases ls <;> cases sy <;> cases op <;> simp [searchThisFileRun]

/-- C5, counterexample to the claim as stated: the part_001 iteration of
Refactor.InspectFile performs no Lstat and no symlink check, so a candidate
whose metadata marks it a symbolic link and whose target opens successfully
is opened, its target content is read, and it contributes Matches. -/
theorem c5_symlink_cex :
    (inspectFileP1Run ⟨true, true, true, [['a']]⟩ ['f'] ['a']).opened = true
      ∧ (inspectFileP1Run ⟨true, true, true, [['a']]⟩ ['f'] ['a']).matchesOut ≠ [] :=
  ⟨by decide, by decide⟩

/-- C5, amended: the scanners that consult os.Lstat first (searchThisFile
and the refactor.go Refactor.InspectFile) never open a path whose metadata
marks it a symbolic link and contribute no Finding or Match for it; the
earlier part_001 iteration opens every openable candidate regardless. -/
theorem c5_symlink_skip (env : ScanEnv) (filename query : List Char)
    (hstat : env.lstatOk = true) (hsym : env.isSymlink = true) :
    (searchThisFileRun env query).opened = false
      ∧ (searchThisFileRun env query).result = none
      ∧ (inspectFileRun env filename query).opened = false
      ∧ (inspectFileRun env filename query).matchesOut = [] := by
  simp [searchThisFileRun, inspectFileRun, hstat, hsym]

/-- C5, witness for the amended theorem at a symlink environment. -/
theorem c5_symlink_skip_witness :
    (⟨true, true, true, [['a']]⟩ : ScanEnv).isSymlink = true
      ∧ ((searchThisFileRun ⟨true, true, true, [['a']]⟩ ['a']).opened = false
        ∧ (searchThisFileRun ⟨true, true, true, [['a']]⟩ ['a']).result = none
        ∧ (inspectFileRun ⟨true, true, true, [['a']]⟩ ['g'] ['a']).opened = false
        ∧ (inspectFileRun ⟨true, true, true, [['a']]⟩ ['g'] ['a']).matchesOut = []) :=
  ⟨rfl, c5_symlink_skip ⟨true, true, true, [['a']]⟩ ['g'] ['a'] rfl rfl⟩

/-- C6, counterexample to the claim as stated: the channel pipeline in
commit mode (main with the x flag) spawns modifyThisFile for every received
result without reading any input: on a file containing the old text the
content is rewritten while the number of tokens read from standard input
is 0, so no confirmation covers the batch and a non-affirmative answer can
never cancel it. -/
theorem c6_confirmation_cex :
    mainCommitRunA ['a'] ['b']
        [(searchThisFileFindings (splitLines ['a']) ['a'], ⟨['a'], 420⟩)]
      = ([⟨['b'], 420⟩], 0)
      ∧ (mainCommitRunA ['a'] ['b']
          [(searchThisFileFindings (splitLines ['a']) ['a'], ⟨['a'], 420⟩)]).2 = 0
      ∧ (mainCommitRunA ['a'] ['b']
          [(searchThisFileFindings (splitLines ['a']) ['a'], ⟨['a'], 420⟩)]).1
        ≠ [⟨['a'], 420⟩] :=
  ⟨by decide, by decide, by decide⟩

/-- C6, amended: in the struct pipeline, Refactor.ReplaceMatches reads
exactly one token for the whole batch, and any answer other than the exact
token y cancels the run: the cancellation notice is printed, no
ModifyFileContent task is spawned, and every file is byte-for-byte
unchanged; the channel pipeline commits without any confirmation read. -/
theorem c6_confirmation (oldtext newtext answer : List Char) (files : List FSFile)
    (h : answer ≠ ['y']) :
    replaceMatchesRun oldtext newtext answer files =
      ⟨files, 1, true, 0⟩ := by
  simp [replaceMatchesRun, h]

/-- C6, witness for the amended theorem at answer n. -/
theorem c6_confirmation_witness :
    (['n'] : List Char) ≠ ['y']
      ∧ replaceMatchesRun ['a'] ['b'] ['n'] [⟨['a'], 420⟩]
        = ⟨[⟨['a'], 420⟩], 1, true, 0⟩ :=
  ⟨by decide, c6_confirmation ['a'] ['b'] ['n'] [⟨['a'], 420⟩] (by decide)⟩

/-- C7, counterexample to the claim as stated: in the channel pipeline an
explicit file list naming the same path twice scans it twice and spawns
one modifyThisFile per result with findings, so the path appears twice in
the modify set and two Rewriter tasks target it concurrently. -/
theorem c7_dedup_cex :
    (modifySetA (fun _ => [['a']]) ['a'] [['f'], ['f']]).count ['f'] = 2 := by
  decide

/-- C7, amended: the struct pipeline deduplicates: the Uniques list built
by Refactor.InspectFile via inArray contains each path at most once for
every arrival order; and in the channel pipeline a path appears at most
once in the modify set provided the input file list itself contains no
duplicate paths. -/
theorem c7_dedup (arrivals files : List (List Char))
    (fs : List Char → List (List Char)) (query : List Char) :
    (buildUniques arrivals).Nodup
      ∧ (files.Nodup → (modifySetA fs query files).Nodup) :=
  ⟨buildUniques_nodup arrivals, fun h => List.Nodup.filter _ h⟩

/-- C7, witness for the amended theorem at a duplicated arrival list and a
duplicate-free file list. -/
theorem c7_dedup_witness :
    (buildUniques [['f'], ['f']]).Nodup
      ∧ (modifySetA (fun _ => [['a']]) ['a'] [['f'], ['g']]).Nodup :=
  ⟨(c7_dedup [['f'], ['f']] [['f'], ['g']] (fun _ => [['a']]) ['a']).1,
   (c7_dedup [['f'], ['f']] [['f'], ['g']] (fun _ => [['a']]) ['a']).2 (by decide)⟩

/-- C8, counterexample to the claim as stated: in the channel pipeline the
main loop receives results over an unbuffered channel and spawns
modifyThisFile for the first result with findings before later scanners
can complete their send, so a preview or rewrite begins before the scan
fan-in barrier: the run trace violates the barrier discipline. -/
theorem c8_barrier_cex :
    mainEventsA [(0, true), (1, false)]
        = [PipeEvent.scanDone 0, PipeEvent.modifyStart 0, PipeEvent.scanDone 1]
      ∧ barrierRespectedB (mainEventsA [(0, true), (1, false)]) = false :=
  ⟨by decide, by decide⟩

/-- C8, amended: in the struct pipeline, Refactor.Execute runs
GrepDirectory to the full wg.Wait barrier before PrintMatches and
ReplaceMatches, so no preview or rewrite event ever precedes a scanner
completion in its trace; the channel pipeline interleaves them. -/
theorem c8_barrier (n : Nat) (mods : List Nat) :
    barrierRespectedB (executeEventsB n mods) = true :=
  barrierRespectedB_scans (List.range n) mods

/-- C9: both rewriters write through ioutil.WriteFile, whose perm argument
is applied by the operating system only when the path is being created;
for a file that already exists at write time the permission bits after the
rewrite equal the bits before it, for the channel pipeline (perm 0644) and
the struct pipeline (perm 0) alike, and the written content is exactly the
replacement result. -/
theorem c9_permissions (oldText newText : List Char) (fnds : List Finding) (f : FSFile) :
    (modifyThisFileCommit oldText newText fnds f).mode = f.mode
      ∧ (modifyFileContentRun oldText newText f).mode = f.mode
      ∧ (modifyThisFileCommit oldText newText fnds f).content
        = stringsReplace f.content oldText newText (totalOccurrences fnds)
      ∧ (modifyFileContentRun oldText newText f).content
        = stringsReplaceAll f.content oldText newText :=
  ⟨rfl, rfl, rfl, rfl⟩

/-- C10: with an empty oldText every line passes the strings.Contains test
and strings.Count returns the line length plus one, so every line of every
readable file yields a Finding; a readable file with at least one line has
a nonempty Finding list and therefore enters the modify set. -/
theorem c10_empty_oldtext (lines : List (List Char)) (hne : lines ≠ [])
    (fs : List Char → List (List Char)) (files : List (List Char)) (p : List Char) :
    (∀ l ∈ lines, stringsContains l [] = true ∧ stringsCount l [] = l.length + 1)
      ∧ (searchThisFileFindings lines []).length = lines.length
      ∧ searchThisFileFindings lines [] ≠ []
      ∧ (p ∈ files → fs p = lines → p ∈ modifySetA fs [] files) := by
  have hlen : (searchThisFileFindings lines []).length = lines.length :=
    searchFindingsFrom_length_empty_query lines 0
  have hnonempty : searchThisFileFindings lines [] ≠ [] := by
    intro hempty
    apply hne
    have := hlen
    rw [hempty] at this
    exact (List.length_eq_zero.mp this.symm)
  refine ⟨fun l _ => ⟨?_, ?_⟩, hlen, hnonempty, fun hp hfs => ?_⟩
  · cases l <;> simp [stringsContains, List.isPrefixOf]
  · simp [stringsCount]
  · refine List.mem_filter.mpr ⟨hp, ?_⟩
    rw [hfs]
    rcases hcase : searchThisFileFindings lines [] with _ | ⟨f0, fs0⟩
    · exact absurd hcase hnonempty
    · simp [hcase]

/-- C10, witness at a one-line file entering the modify set. -/
theorem c10_empty_oldtext_witness :
    ([['a']] : List (List Char)) ≠ []
      ∧ (searchThisFileFindings [['a']] []).length = 1
      ∧ searchThisFileFindings [['a']] [] ≠ []
      ∧ ['f'] ∈ modifySetA (fun _ => [['a']]) [] [['f']] :=
  ⟨by decide,
   (c10_empty_oldtext [['a']] (by decide) (fun _ => [['a']]) [['f']] ['f']).2.1,
   (c10_empty_oldtext [['a']] (by decide) (fun _ => [['a']]) [['f']] ['f']).2.2.1,
   (c10_empty_oldtext [['a']] (by decide) (fun _ => [['a']]) [['f']] ['f']).2.2.2
     (by decide) rfl⟩

end Refactor
